import Mathlib

/-!
Shallow embedding of the CSS coverage analysis engine from
`src/pages/api/check-css.ts`: the rule segmenter `parseCSSRules`, the usage
classifier `isRuleUsed`, the per-file and global aggregation performed by the
request handler, and the TTL result cache.  Stylesheet text is modelled as
`List Char` (one element per JS code unit), byte offsets as `Nat`, and the
JS-number brace counter and byte sums as `Int`.
-/

/-- Whitespace class used by JS `String.prototype.trim` (ASCII part). -/
def jsIsSpace (c : Char) : Bool :=
  c = ' ' || c = '\t' || c = '\n' || c = '\r' || c = '\x0b' || c = '\x0c'

/-- Embedding of JS `s.trim()`: drop whitespace from both ends. -/
def trimChars (s : List Char) : List Char :=
  ((s.dropWhile jsIsSpace).reverse.dropWhile jsIsSpace).reverse

/-- One coverage range `{start, end}` (field `end` is a Lean keyword, renamed
`rend`); a half-open interval `[start, rend)` into the stylesheet text. -/
structure CoverageRange where
  start : Nat
  rend : Nat
deriving DecidableEq

/-- One iteration of the `for` loop of `parseCSSRules`: state is
`(rules, currentRule, braceCount)`; the character is appended to the buffer,
braces adjust the counter, and on a `}` that brings the counter to exactly 0
the trimmed buffer is emitted and reset. -/
def parseStep (st : List (List Char) × List Char × Int) (c : Char) :
    List (List Char) × List Char × Int :=
  let rules := st.1
  let currentRule := st.2.1 ++ [c]
  let braceCount := st.2.2
  if c = '{' then (rules, currentRule, braceCount + 1)
  else if c = '}' then
    if braceCount - 1 = 0 then (rules ++ [trimChars currentRule], [], braceCount - 1)
    else (rules, currentRule, braceCount - 1)
  else (rules, currentRule, braceCount)

/-- Embedding of `parseCSSRules`: fold the loop body over the text, starting
from empty rule list, empty buffer and brace count 0. -/
def parseCSSRules (cssText : List Char) : List (List Char) :=
  (cssText.foldl parseStep ([], [], 0)).1

/-- Brace depth after scanning a text (the fold's final `braceCount`). -/
def depthAfter (cssText : List Char) : Int :=
  (cssText.foldl parseStep ([], [], 0)).2.2

/-- `listStartsWith needle hay`: `needle` is an initial segment of `hay`. -/
def listStartsWith : List Char → List Char → Bool
  | [], _ => true
  | _ :: _, [] => false
  | a :: as, b :: bs => a = b && listStartsWith as bs

/-- Embedding of JS `hay.indexOf(needle)`: `some i` at the first occurrence,
`none` when absent (JS returns `-1`). -/
def indexOfCore (needle : List Char) : List Char → Option Nat
  | [] => if listStartsWith needle [] then some 0 else none
  | c :: rest =>
    if listStartsWith needle (c :: rest) then some 0
    else (indexOfCore needle rest).map (fun n => n + 1)

/-- Embedding of `isRuleUsed`: find the first occurrence of the rule text in
the stylesheet; absent means unused; otherwise used iff some range fully
contains the rule's span. -/
def isRuleUsed (rule cssText : List Char) (ranges : List CoverageRange) : Bool :=
  match indexOfCore rule cssText with
  | none => false
  | some ruleStart =>
    ranges.any (fun range =>
      decide (ruleStart ≥ range.start ∧ ruleStart + rule.length ≤ range.rend))

/-- The `CSSRule` record pushed into `unusedRules`. -/
structure CSSRule where
  selector : List Char
  used : Bool
  bytes : Nat
deriving DecidableEq

/-- The per-rule loop of the handler: for each parsed rule compute
`selector = rule.split("\x7b")[0].trim()` and `bytes = rule.length`, and keep
the unused ones in order. -/
def collectUnused (rules : List (List Char)) (cssText : List Char)
    (ranges : List CoverageRange) : List CSSRule :=
  match rules with
  | [] => []
  | rule :: rest =>
    let selector := trimChars (rule.takeWhile (fun c => c ≠ '{'))
    let ruleBytes := rule.length
    if isRuleUsed rule cssText ranges then collectUnused rest cssText ranges
    else { selector := selector, used := false, bytes := ruleBytes } ::
      collectUnused rest cssText ranges

/-- One coverage entry handed to the handler: stylesheet URL, full text and
its coverage ranges. -/
structure StylesheetSource where
  url : List Char
  text : List Char
  ranges : List CoverageRange
deriving DecidableEq

/-- The `CSSFileDetail` record pushed into `files`.  `used` is an `Int`
because it is a JS-number sum of `range.end - range.start`. -/
structure CSSFileDetail where
  url : List Char
  total : Nat
  used : Int
  unusedRules : List CSSRule
deriving DecidableEq

/-- Embedding of `entry.ranges.reduce((sum, range) => sum + (range.end -
range.start), 0)`. -/
def fileUsed (ranges : List CoverageRange) : Int :=
  ranges.foldl (fun sum range => sum + ((range.rend : Int) - (range.start : Int))) 0

/-- The per-entry body of the handler's `for (const entry of cssCoverage)`
loop: total, coverage-reported used bytes, and the unused rules collected
from segmentation plus classification. -/
def analyzeEntry (entry : StylesheetSource) : CSSFileDetail :=
  { url := if entry.url = [] then "inline <style>".toList else entry.url
  , total := entry.text.length
  , used := fileUsed entry.ranges
  , unusedRules := collectUnused (parseCSSRules entry.text) entry.text entry.ranges }

/-- The `CSSUsageResult` record returned by the handler; `usagePercent` is
modelled as an exact rational. -/
structure CSSUsageResult where
  totalBytes : Nat
  usedBytes : Int
  usagePercent : ℚ
  files : List CSSFileDetail
deriving DecidableEq

/-- The handler's accumulation loop over coverage entries: `totalBytes +=
total; usedBytes += used; files.push(detail)`. -/
def handlerLoop : List StylesheetSource → Nat → Int → List CSSFileDetail →
    Nat × Int × List CSSFileDetail
  | [], totalBytes, usedBytes, files => (totalBytes, usedBytes, files)
  | entry :: rest, totalBytes, usedBytes, files =>
    let detail := analyzeEntry entry
    handlerLoop rest (totalBytes + detail.total) (usedBytes + detail.used)
      (files ++ [detail])

/-- The pure core of the handler: run the loop, then
`usagePercent = totalBytes > 0 ? (usedBytes / totalBytes) * 100 : 0`. -/
def analyze (entries : List StylesheetSource) : CSSUsageResult :=
  let acc := handlerLoop entries 0 0 []
  let totalBytes := acc.1
  let usedBytes := acc.2.1
  let files := acc.2.2
  { totalBytes := totalBytes
  , usedBytes := usedBytes
  , usagePercent :=
      if 0 < totalBytes then ((usedBytes : ℚ) / (totalBytes : ℚ)) * 100 else 0
  , files := files }

/-- A `resultCache` entry: `{ result, timestamp }`. -/
structure CacheEntry where
  result : CSSUsageResult
  timestamp : Nat
deriving DecidableEq

/-- `CACHE_TTL = 1000 * 60 * 60` milliseconds (1 hour). -/
def CACHE_TTL : Nat := 1000 * 60 * 60

/-- The `resultCache` map, modelled as an association list keyed by URL. -/
abbrev Cache := List (List Char × CacheEntry)

/-- `resultCache.get(key)`: the entry stored for `key`, if any. -/
def cacheLookup : Cache → List Char → Option CacheEntry
  | [], _ => none
  | (k, e) :: rest, key => if key = k then some e else cacheLookup rest key

/-- `resultCache.set(url, { result, timestamp: Date.now() })`: unconditionally
replaces any previous entry for the key. -/
def cachePut (cache : Cache) (key : List Char) (result : CSSUsageResult)
    (now : Nat) : Cache :=
  (key, { result := result, timestamp := now }) ::
    cache.filter (fun kv => kv.1 ≠ key)

/-- The handler's cache read: a stored entry is returned only while
`Date.now() - cached.timestamp < CACHE_TTL`; otherwise it behaves as absent. -/
def cacheGet (cache : Cache) (key : List Char) (now : Nat) :
    Option CSSUsageResult :=
  match cacheLookup cache key with
  | none => none
  | some e =>
    if (now : Int) - (e.timestamp : Int) < (CACHE_TTL : Int) then some e.result
    else none

/-- `occursAt needle hay i`: `needle` occurs in `hay` at position `i`. -/
def occursAt (needle hay : List Char) (i : Nat) : Prop :=
  listStartsWith needle (hay.drop i) = true

/-- `noClose s d`: scanning `s` with initial brace count `d`, no `}` ever
brings the counter to exactly 0 (so the segmenter flushes nothing). -/
def noClose : List Char → Int → Bool
  | [], _ => true
  | c :: rest, d =>
    if c = '{' then noClose rest (d + 1)
    else if c = '}' then
      if d - 1 = 0 then false else noClose rest (d - 1)
    else noClose rest d

/-- Two coverage ranges occupy disjoint intervals. -/
def nonOverlapping (a b : CoverageRange) : Prop :=
  a.rend ≤ b.start ∨ b.rend ≤ a.start

/-- The set of byte offsets covered by one range. -/
def rangeSet (r : CoverageRange) : Finset ℕ := Finset.Ico r.start r.rend

/-- The set of byte offsets covered by a list of ranges. -/
def unionSets : List CoverageRange → Finset ℕ
  | [] => ∅
  | r :: rest => rangeSet r ∪ unionSets rest

/-! ### Helper lemmas -/

lemma fileUsed_foldl (ranges : List CoverageRange) (acc : Int) :
    ranges.foldl (fun sum range => sum + ((range.rend : Int) - (range.start : Int))) acc
      = acc + (ranges.map (fun r => (r.rend : Int) - (r.start : Int))).sum := by
  induction ranges generalizing acc with
  | nil => simp
  | cons r rest ih =>
    simp only [List.foldl_cons, List.map_cons, List.sum_cons, ih]
    ring

lemma fileUsed_eq (ranges : List CoverageRange) :
    fileUsed ranges = (ranges.map (fun r => (r.rend : Int) - (r.start : Int))).sum := by
  simpa [fileUsed] using fileUsed_foldl ranges 0

lemma handlerLoop_spec (entries : List StylesheetSource) (tb : Nat) (ub : Int)
    (fs : List CSSFileDetail) :
    handlerLoop entries tb ub fs =
      (tb + ((entries.map analyzeEntry).map (fun f => f.total)).sum,
       ub + ((entries.map analyzeEntry).map (fun f => f.used)).sum,
       fs ++ entries.map analyzeEntry) := by
  induction entries generalizing tb ub fs with
  | nil => simp [handlerLoop]
  | cons e rest ih =>
    simp only [handlerLoop, ih, List.map_cons, List.sum_cons, Prod.mk.injEq]
    refine ⟨by ring, by ring, by simp⟩

lemma indexOfCore_some_spec (needle : List Char) :
    ∀ (hay : List Char) (i : Nat), indexOfCore needle hay = some i →
      listStartsWith needle (hay.drop i) = true ∧
        ∀ j, j < i → listStartsWith needle (hay.drop j) = false := by
  intro hay
  induction hay with
  | nil =>
    intro i h
    by_cases hs : listStartsWith needle [] = true
    · simp [indexOfCore, hs] at h
      subst h
      exact ⟨hs, by omega⟩
    · simp [indexOfCore, hs] at h
  | cons c rest ih =>
    intro i h
    by_cases hs : listStartsWith needle (c :: rest) = true
    · simp [indexOfCore, hs] at h
      subst h
      exact ⟨hs, by omega⟩
    · simp only [indexOfCore, if_neg hs, Option.map_eq_some'] at h
      obtain ⟨i', hi', rfl⟩ := h
      obtain ⟨h1, h2⟩ := ih i' hi'
      refine ⟨by simpa using h1, ?_⟩
      intro j hj
      cases j with
      | zero => simpa using Bool.eq_false_iff.mpr (fun hc => hs hc)
      | succ j' =>
        simp only [List.drop_succ_cons]
        exact h2 j' (by omega)

lemma indexOfCore_none_spec (needle : List Char) :
    ∀ (hay : List Char), indexOfCore needle hay = none →
      ∀ j, listStartsWith needle (hay.drop j) = false := by
  intro hay
  induction hay with
  | nil =>
    intro h j
    by_cases hs : listStartsWith needle [] = true
    · simp [indexOfCore, hs] at h
    · simpa [List.drop_nil] using Bool.eq_false_iff.mpr (fun hc => hs hc)
  | cons c rest ih =>
    intro h j
    by_cases hs : listStartsWith needle (c :: rest) = true
    · simp [indexOfCore, hs] at h
    · simp only [indexOfCore, if_neg hs, Option.map_eq_none'] at h
      cases j with
      | zero => simpa using Bool.eq_false_iff.mpr (fun hc => hs hc)
      | succ j' =>
        simp only [List.drop_succ_cons]
        exact ih h j'

lemma listStartsWith_self_append (l t : List Char) :
    listStartsWith l (l ++ t) = true := by
  induction l with
  | nil => simp [listStartsWith]
  | cons a as ih => simp [listStartsWith, ih]

lemma indexOfCore_isSome_of_occurs (needle hay : List Char) (i : Nat)
    (h : listStartsWith needle (hay.drop i) = true) :
    ∃ k, indexOfCore needle hay = some k := by
  cases hk : indexOfCore needle hay with
  | none => exact absurd h (by simp [indexOfCore_none_spec needle hay hk i])
  | some k => exact ⟨k, rfl⟩

lemma foldl_noClose :
    ∀ (s : List Char) (rules : List (List Char)) (cur : List Char) (d : Int),
      noClose s d = true →
      (List.foldl parseStep (rules, cur, d) s).1 = rules := by
  intro s
  induction s with
  | nil => intro rules cur d _; rfl
  | cons c s' ih =>
    intro rules cur d h
    rw [List.foldl_cons]
    by_cases hc : c = '{'
    · subst hc
      simp only [noClose, if_pos rfl] at h
      simp only [parseStep, if_pos rfl]
      exact ih _ _ _ h
    · by_cases hc2 : c = '}'
      · subst hc2
        simp only [noClose, if_neg (by decide : ¬('}' = '{')), if_pos rfl] at h
        by_cases hd : d - 1 = 0
        · rw [if_pos hd] at h
          exact absurd h (by simp)
        · rw [if_neg hd] at h
          simp only [parseStep, if_neg (by decide : ¬('}' = '{')), if_pos rfl,
            if_neg hd]
          exact ih _ _ _ h
      · simp only [noClose, if_neg hc, if_neg hc2] at h
        simp only [parseStep, if_neg hc, if_neg hc2]
        exact ih _ _ _ h

lemma parseCSSRules_append_noClose (t s : List Char)
    (h : noClose s (depthAfter t) = true) :
    parseCSSRules (t ++ s) = parseCSSRules t := by
  unfold parseCSSRules
  rw [List.foldl_append]
  have hst : List.foldl parseStep ([], [], 0) t =
      ((List.foldl parseStep ([], [], 0) t).1,
       (List.foldl parseStep ([], [], 0) t).2.1,
       (List.foldl parseStep ([], [], 0) t).2.2) := rfl
  rw [hst]
  exact foldl_noClose s _ _ _ h

lemma foldl_parseStep_mem :
    ∀ (s : List Char) (rules : List (List Char)) (cur : List Char) (d : Int)
      (r : List Char), r ∈ (List.foldl parseStep (rules, cur, d) s).1 →
      r ∈ rules ∨ ∃ u pre post, cur ++ s = pre ++ u ++ post ∧ r = trimChars u := by
  intro s
  induction s with
  | nil =>
    intro rules cur d r hr
    exact Or.inl hr
  | cons c s' ih =>
    intro rules cur d r hr
    rw [List.foldl_cons] at hr
    have hshift : cur ++ (c :: s') = (cur ++ [c]) ++ s' := by simp
    by_cases hc : c = '{'
    · subst hc
      simp only [parseStep, if_pos rfl] at hr
      rcases ih _ _ _ _ hr with h0 | ⟨u, pre, post, heq, hru⟩
      · exact Or.inl h0
      · exact Or.inr ⟨u, pre, post, by rw [hshift, heq], hru⟩
    · by_cases hc2 : c = '}'
      · subst hc2
        simp only [parseStep, if_neg (by decide : ¬('}' = '{')), if_pos rfl] at hr
        by_cases hd : d - 1 = 0
        · rw [if_pos hd] at hr
          rcases ih _ _ _ _ hr with h0 | ⟨u, pre, post, heq, hru⟩
          · rcases List.mem_append.mp h0 with h1 | h1
            · exact Or.inl h1
            · have hr' : r = trimChars (cur ++ ['}']) := by simpa using h1
              exact Or.inr ⟨cur ++ ['}'], [], s', by simp, hr'⟩
          · rw [List.nil_append] at heq
            refine Or.inr ⟨u, (cur ++ ['}']) ++ pre, post, ?_, hru⟩
            rw [hshift, heq]
            simp [List.append_assoc]
        · rw [if_neg hd] at hr
          rcases ih _ _ _ _ hr with h0 | ⟨u, pre, post, heq, hru⟩
          · exact Or.inl h0
          · exact Or.inr ⟨u, pre, post, by rw [hshift, heq], hru⟩
      · simp only [parseStep, if_neg hc, if_neg hc2] at hr
        rcases ih _ _ _ _ hr with h0 | ⟨u, pre, post, heq, hru⟩
        · exact Or.inl h0
        · exact Or.inr ⟨u, pre, post, by rw [hshift, heq], hru⟩

lemma trimChars_decomp (s : List Char) : ∃ a b, s = a ++ trimChars s ++ b := by
  refine ⟨s.takeWhile jsIsSpace,
          ((s.dropWhile jsIsSpace).reverse.takeWhile jsIsSpace).reverse, ?_⟩
  unfold trimChars
  conv_lhs => rw [← List.takeWhile_append_dropWhile (p := jsIsSpace) (l := s)]
  rw [List.append_assoc]
  congr 1
  calc s.dropWhile jsIsSpace
      = (s.dropWhile jsIsSpace).reverse.reverse := by rw [List.reverse_reverse]
    _ = ((s.dropWhile jsIsSpace).reverse.takeWhile jsIsSpace ++
          (s.dropWhile jsIsSpace).reverse.dropWhile jsIsSpace).reverse := by
        rw [List.takeWhile_append_dropWhile]
    _ = ((s.dropWhile jsIsSpace).reverse.dropWhile jsIsSpace).reverse ++
          ((s.dropWhile jsIsSpace).reverse.takeWhile jsIsSpace).reverse := by
        rw [List.reverse_append]

lemma mem_parseCSSRules_decomp (text rule : List Char)
    (h : rule ∈ parseCSSRules text) :
    ∃ pre post, text = pre ++ rule ++ post := by
  have h' := foldl_parseStep_mem text [] [] 0 rule h
  rcases h' with h0 | ⟨u, pre, post, heq, hru⟩
  · simp at h0
  · rw [List.nil_append] at heq
    obtain ⟨a, b, hu⟩ := trimChars_decomp u
    refine ⟨pre ++ a, b ++ post, ?_⟩
    rw [heq, hu, ← hru]
    simp [List.append_assoc]

lemma mem_unionSets (x : ℕ) : ∀ (rs : List CoverageRange),
    x ∈ unionSets rs ↔ ∃ r ∈ rs, x ∈ rangeSet r := by
  intro rs
  induction rs with
  | nil => simp [unionSets]
  | cons r rest ih => simp [unionSets, Finset.mem_union, ih]

lemma disjoint_rangeSet_unionSets (r : CoverageRange) (rest : List CoverageRange)
    (h : ∀ r' ∈ rest, nonOverlapping r r') :
    Disjoint (rangeSet r) (unionSets rest) := by
  rw [Finset.disjoint_left]
  intro x hx hx'
  rw [mem_unionSets] at hx'
  obtain ⟨r', hr', hxr'⟩ := hx'
  have hno := h r' hr'
  simp only [rangeSet, Finset.mem_Ico] at hx hxr'
  rcases hno with hno | hno <;> omega

lemma sum_lengths_eq_card (rs : List CoverageRange)
    (hd : List.Pairwise nonOverlapping rs) :
    (rs.map (fun r => r.rend - r.start)).sum = (unionSets rs).card := by
  induction rs with
  | nil => simp [unionSets]
  | cons r rest ih =>
    rw [List.pairwise_cons] at hd
    obtain ⟨h1, h2⟩ := hd
    simp only [List.map_cons, List.sum_cons, unionSets]
    rw [Finset.card_union_of_disjoint (disjoint_rangeSet_unionSets r rest h1),
      ih h2]
    congr 1
    simp [rangeSet, Nat.card_Ico]

lemma unionSets_card_le (rs : List CoverageRange) (n : ℕ)
    (hb : ∀ r ∈ rs, r.rend ≤ n) :
    (unionSets rs).card ≤ n := by
  have hsub : unionSets rs ⊆ Finset.Ico 0 n := by
    intro x hx
    rw [mem_unionSets] at hx
    obtain ⟨r, hr, hxr⟩ := hx
    simp only [rangeSet, Finset.mem_Ico] at hxr
    have := hb r hr
    simp only [Finset.mem_Ico]
    omega
  calc (unionSets rs).card ≤ (Finset.Ico 0 n).card := Finset.card_le_card hsub
    _ = n := by simp [Nat.card_Ico]

lemma fileUsed_cast (rs : List CoverageRange)
    (hle : ∀ r ∈ rs, r.start ≤ r.rend) :
    fileUsed rs = (((rs.map (fun r => r.rend - r.start)).sum : ℕ) : ℤ) := by
  rw [fileUsed_eq]
  induction rs with
  | nil => simp
  | cons r rest ih =>
    simp only [List.map_cons, List.sum_cons]
    rw [ih (fun r' hr' => hle r' (List.mem_cons_of_mem _ hr'))]
    have h := hle r (List.mem_cons_self _ _)
    omega

lemma collectUnused_eq (rules : List (List Char)) (cssText : List Char)
    (ranges : List CoverageRange) :
    collectUnused rules cssText ranges =
      (rules.filter (fun rule => ! isRuleUsed rule cssText ranges)).map
        (fun rule =>
          { selector := trimChars (rule.takeWhile (fun c => c ≠ '{'))
          , used := false
          , bytes := rule.length }) := by
  induction rules with
  | nil => rfl
  | cons rule rest ih =>
    cases h : isRuleUsed rule cssText ranges with
    | true => simp [collectUnused, List.filter_cons, h, ih]
    | false => simp [collectUnused, List.filter_cons, h, ih]

lemma noClose_of_all_space (s : List Char)
    (hs : ∀ c ∈ s, jsIsSpace c = true) : ∀ d, noClose s d = true := by
  induction s with
  | nil => intro d; rfl
  | cons c rest ih =>
    intro d
    have hc := hs c (List.mem_cons_self _ _)
    have h1 : ¬ (c = '{') := by
      intro h
      rw [h] at hc
      exact absurd hc (by decide)
    have h2 : ¬ (c = '}') := by
      intro h
      rw [h] at hc
      exact absurd hc (by decide)
    simp only [noClose, if_neg h1, if_neg h2]
    exact ih (fun c' hc' => hs c' (List.mem_cons_of_mem _ hc')) d

/-! ### Claim theorems -/

/-- C1 (amended): for every stylesheet entry, the produced file detail has
`total = length(text)` and `0 ≤ used`; and `used ≤ total` holds provided the
coverage ranges (each with `end > start`) are pairwise non-overlapping and
each lies within the text. -/
theorem C1_file_bounds (entry : StylesheetSource)
    (hpos : ∀ r ∈ entry.ranges, r.start < r.rend)
    (hdisj : List.Pairwise nonOverlapping entry.ranges)
    (hbound : ∀ r ∈ entry.ranges, r.rend ≤ entry.text.length) :
    (analyzeEntry entry).total = entry.text.length ∧
    0 ≤ (analyzeEntry entry).used ∧
    (analyzeEntry entry).used ≤ ((analyzeEntry entry).total : ℤ) := by
  have hle : ∀ r ∈ entry.ranges, r.start ≤ r.rend :=
    fun r hr => le_of_lt (hpos r hr)
  refine ⟨rfl, ?_, ?_⟩
  · show (0 : ℤ) ≤ fileUsed entry.ranges
    rw [fileUsed_cast _ hle]
    exact Int.natCast_nonneg _
  · show fileUsed entry.ranges ≤ (entry.text.length : ℤ)
    rw [fileUsed_cast _ hle, sum_lengths_eq_card _ hdisj]
    exact_mod_cast unionSets_card_le entry.ranges entry.text.length hbound

/-- C1 counterexample: a single coverage range with `end > start` that
extends past the end of the text makes `used` exceed `total`, so the claim
fails without a containment assumption. -/
theorem C1_counterexample :
    ((⟨0, 5⟩ : CoverageRange).start < (⟨0, 5⟩ : CoverageRange).rend) ∧
    ¬ ((analyzeEntry ⟨['u'], ['a'], [⟨0, 5⟩]⟩).used ≤
        ((analyzeEntry ⟨['u'], ['a'], [⟨0, 5⟩]⟩).total : ℤ)) := by
  decide

/-- C1 witness: the amended bounds hold on a concrete well-formed entry. -/
theorem C1_witness :
    (analyzeEntry ⟨['u'], ['a', '{', 'b', '}'], [⟨0, 4⟩]⟩).total =
      (['a', '{', 'b', '}'] : List Char).length ∧
    0 ≤ (analyzeEntry ⟨['u'], ['a', '{', 'b', '}'], [⟨0, 4⟩]⟩).used ∧
    (analyzeEntry ⟨['u'], ['a', '{', 'b', '}'], [⟨0, 4⟩]⟩).used ≤
      ((analyzeEntry ⟨['u'], ['a', '{', 'b', '}'], [⟨0, 4⟩]⟩).total : ℤ) :=
  C1_file_bounds _ (by decide) (by simp) (by decide)

/-- C5: the report aggregation returns `totalBytes` and `usedBytes` equal to
the exact sums of the per-file `total` and `used`, with `files` in input
order. -/
theorem C5_report_sums (entries : List StylesheetSource) :
    (analyze entries).totalBytes =
      ((analyze entries).files.map (fun f => f.total)).sum ∧
    (analyze entries).usedBytes =
      ((analyze entries).files.map (fun f => f.used)).sum ∧
    (analyze entries).files = entries.map analyzeEntry := by
  refine ⟨?_, ?_, ?_⟩ <;>
    simp [analyze, handlerLoop_spec]

/-- C6: `usagePercent` is 0 whenever `totalBytes = 0` (the division is
guarded), and otherwise equals `usedBytes / totalBytes * 100` exactly. -/
theorem C6_usage_percent_guard (entries : List StylesheetSource) :
    ((analyze entries).totalBytes = 0 → (analyze entries).usagePercent = 0) ∧
    ((analyze entries).totalBytes ≠ 0 →
      (analyze entries).usagePercent =
        ((analyze entries).usedBytes : ℚ) /
          ((analyze entries).totalBytes : ℚ) * 100) := by
  have htb : (analyze entries).totalBytes = (handlerLoop entries 0 0 []).1 := rfl
  have hup : (analyze entries).usagePercent =
      (if 0 < (handlerLoop entries 0 0 []).1
       then (((handlerLoop entries 0 0 []).2.1 : ℚ) /
         ((handlerLoop entries 0 0 []).1 : ℚ)) * 100
       else 0) := rfl
  constructor
  · intro h
    rw [htb] at h
    rw [hup, if_neg (by omega)]
  · intro h
    rw [htb] at h
    rw [hup, if_pos (by omega)]
    rfl

/-- C6 witness: on no stylesheets, `totalBytes = 0` and `usagePercent = 0`. -/
theorem C6_witness : (analyze []).usagePercent = 0 :=
  (C6_usage_percent_guard []).1 rfl

/-- C8: the `unusedRules` of a file detail are exactly the segmented rules
classified unused, in segmentation order, each with trimmed text-before-brace
selector, `used = false` and `bytes` the rule's length; in particular no rule
classified used appears. -/
theorem C8_unused_rules (entry : StylesheetSource) :
    (analyzeEntry entry).unusedRules =
      ((parseCSSRules entry.text).filter
        (fun rule => ! isRuleUsed rule entry.text entry.ranges)).map
        (fun rule =>
          { selector := trimChars (rule.takeWhile (fun c => c ≠ '{'))
          , used := false
          , bytes := rule.length }) ∧
    ∀ cr ∈ (analyzeEntry entry).unusedRules, cr.used = false := by
  have h : (analyzeEntry entry).unusedRules =
      collectUnused (parseCSSRules entry.text) entry.text entry.ranges := rfl
  rw [h, collectUnused_eq]
  refine ⟨rfl, ?_⟩
  intro cr hcr
  obtain ⟨rule, _, rfl⟩ := List.mem_map.mp hcr
  rfl

/-- C8 witness: a concrete unused rule record has `used = false`. -/
theorem C8_witness :
    (⟨['a'], false, 4⟩ : CSSRule).used = false :=
  (C8_unused_rules ⟨['u'], ['a', '{', 'b', '}'], []⟩).2
    ⟨['a'], false, 4⟩ (by decide)

/-- C2: for a rule produced by segmentation, located at its first occurrence
`i`: full containment of the span `[i, i + length)` in a single range makes
the rule used; partial overlap with some range but full containment in none
makes it unused. -/
theorem C2_containment_classification (text rule : List Char)
    (ranges : List CoverageRange) (i : ℕ)
    (_hmem : rule ∈ parseCSSRules text)
    (hidx : indexOfCore rule text = some i) :
    ((∃ r ∈ ranges, r.start ≤ i ∧ i + rule.length ≤ r.rend) →
      isRuleUsed rule text ranges = true) ∧
    ((∃ r ∈ ranges, i < r.rend ∧ r.start < i + rule.length) ∧
      (¬ ∃ r ∈ ranges, r.start ≤ i ∧ i + rule.length ≤ r.rend) →
      isRuleUsed rule text ranges = false) := by
  have hrw : isRuleUsed rule text ranges =
      ranges.any (fun range =>
        decide (i ≥ range.start ∧ i + rule.length ≤ range.rend)) := by
    unfold isRuleUsed
    rw [hidx]
  constructor
  · rintro ⟨r, hr, h1, h2⟩
    rw [hrw, List.any_eq_true]
    exact ⟨r, hr, by simp [h1, h2]⟩
  · rintro ⟨_, hnone⟩
    rw [hrw, List.any_eq_false]
    intro r hr
    simp only [decide_eq_true_eq, ge_iff_le, not_and, not_le]
    intro hcon1
    by_contra hc
    push_neg at hc
    exact hnone ⟨r, hr, hcon1, hc⟩

/-- C2 witness: a rule fully inside a single range is classified used. -/
theorem C2_witness :
    isRuleUsed ['a', '{', 'b', '}'] ['a', '{', 'b', '}'] [⟨0, 4⟩] = true :=
  (C2_containment_classification ['a', '{', 'b', '}'] ['a', '{', 'b', '}']
    [⟨0, 4⟩] 0 (by decide) (by decide)).1 (by decide)

/-- C3: the classifier locates the first occurrence of the rule text (the
returned index is an occurrence and no smaller index is), classifies a
not-found rule as unused, and otherwise classifies used exactly when some
single range contains `[ruleStart, ruleStart + length)`. -/
theorem C3_classifier_spec (rule text : List Char)
    (ranges : List CoverageRange) :
    (∀ i, indexOfCore rule text = some i →
      occursAt rule text i ∧ ∀ j, occursAt rule text j → i ≤ j) ∧
    (indexOfCore rule text = none → isRuleUsed rule text ranges = false) ∧
    (∀ i, indexOfCore rule text = some i →
      (isRuleUsed rule text ranges = true ↔
        ∃ r ∈ ranges, r.start ≤ i ∧ i + rule.length ≤ r.rend)) := by
  refine ⟨?_, ?_, ?_⟩
  · intro i hi
    obtain ⟨h1, h2⟩ := indexOfCore_some_spec rule text i hi
    refine ⟨h1, ?_⟩
    intro j hj
    by_contra hlt
    push_neg at hlt
    have hf := h2 j hlt
    unfold occursAt at hj
    rw [hf] at hj
    exact Bool.noConfusion hj
  · intro h
    unfold isRuleUsed
    rw [h]
  · intro i hi
    have hrw : isRuleUsed rule text ranges =
        ranges.any (fun range =>
          decide (i ≥ range.start ∧ i + rule.length ≤ range.rend)) := by
      unfold isRuleUsed
      rw [hi]
    rw [hrw, List.any_eq_true]
    constructor
    · rintro ⟨r, hr, hd⟩
      simp only [decide_eq_true_eq, ge_iff_le] at hd
      exact ⟨r, hr, hd.1, hd.2⟩
    · rintro ⟨r, hr, h1, h2⟩
      exact ⟨r, hr, by simp [h1, h2]⟩

/-- C3 witness: a rule text absent from the stylesheet is classified
unused. -/
theorem C3_witness : isRuleUsed ['z'] ['a'] [⟨0, 1⟩] = false :=
  (C3_classifier_spec ['z'] ['a'] [⟨0, 1⟩]).2.1 (by decide)

/-- C4: the segmenter emits the trimmed buffer exactly when a `}` returns the
depth to 0; any trailing content that closes no block is dropped (no rule is
emitted for it), and empty or whitespace-only text yields no rules. -/
theorem C4_segmenter_flush :
    (∀ (st : List (List Char) × List Char × Int) (c : Char),
      (¬ (c = '}' ∧ st.2.2 - 1 = 0) ∧ (parseStep st c).1 = st.1) ∨
      (c = '}' ∧ st.2.2 - 1 = 0 ∧
        (parseStep st c).1 = st.1 ++ [trimChars (st.2.1 ++ [c])])) ∧
    (∀ t s, noClose s (depthAfter t) = true →
      parseCSSRules (t ++ s) = parseCSSRules t) ∧
    parseCSSRules [] = [] ∧
    (∀ s, (∀ c ∈ s, jsIsSpace c = true) → parseCSSRules s = []) := by
  refine ⟨?_, parseCSSRules_append_noClose, rfl, ?_⟩
  · intro st c
    by_cases hc : c = '{'
    · subst hc
      exact Or.inl ⟨fun h => absurd h.1 (by decide), by simp [parseStep]⟩
    · by_cases hc2 : c = '}'
      · subst hc2
        by_cases hd : st.2.2 - 1 = 0
        · exact Or.inr ⟨rfl, hd, by simp [parseStep, hd]⟩
        · exact Or.inl ⟨fun h => absurd h.2 hd, by simp [parseStep, hd]⟩
      · exact Or.inl ⟨fun h => absurd h.1 hc2, by simp [parseStep, hc, hc2]⟩
  · intro s hs
    exact foldl_noClose s [] [] 0 (noClose_of_all_space s hs 0)

/-- C4 witness: an unclosed trailing block is dropped by the segmenter. -/
theorem C4_witness :
    parseCSSRules (['a', '{', 'b', '}'] ++ ['c', '{']) =
      parseCSSRules ['a', '{', 'b', '}'] :=
  C4_segmenter_flush.2.1 ['a', '{', 'b', '}'] ['c', '{'] (by decide)

/-- C7: after `put(k, v)` at time `t`, `get(k)` at time `now` returns `v`
while `now - t < TTL` and behaves as absent once `TTL ≤ now - t`; `put`
unconditionally overwrites the previous entry for the key. -/
theorem C7_cache_roundtrip (cache : Cache) (k : List Char)
    (v v' : CSSUsageResult) (t t' now : Nat) :
    (((now : ℤ) - (t : ℤ) < (CACHE_TTL : ℤ)) →
      cacheGet (cachePut cache k v t) k now = some v) ∧
    (((CACHE_TTL : ℤ) ≤ (now : ℤ) - (t : ℤ)) →
      cacheGet (cachePut cache k v t) k now = none) ∧
    cacheLookup (cachePut (cachePut cache k v' t') k v t) k =
      some ⟨v, t⟩ := by
  have hl : cacheLookup (cachePut cache k v t) k = some ⟨v, t⟩ := by
    simp [cachePut, cacheLookup]
  refine ⟨?_, ?_, by simp [cachePut, cacheLookup]⟩
  · intro h
    unfold cacheGet
    rw [hl]
    exact if_pos h
  · intro h
    unfold cacheGet
    rw [hl]
    show (if (now : ℤ) - (t : ℤ) < (CACHE_TTL : ℤ) then some v else none) = none
    exact if_neg (by omega)

/-- C7 witness: a fresh entry is returned by `get` before the TTL elapses. -/
theorem C7_witness :
    cacheGet (cachePut [] ['u'] (analyze []) 0) ['u'] 10 =
      some (analyze []) :=
  (C7_cache_roundtrip [] ['u'] (analyze []) (analyze []) 0 0 10).1 (by decide)

/-- C9: every rule emitted by the segmenter is a contiguous substring of the
text, so the classifier's substring search succeeds on it (`indexOf` never
returns `-1` on that path). -/
theorem C9_segmented_rule_found (text rule : List Char)
    (h : rule ∈ parseCSSRules text) :
    (∃ pre post, text = pre ++ rule ++ post) ∧
    indexOfCore rule text ≠ none := by
  obtain ⟨pre, post, heq⟩ := mem_parseCSSRules_decomp text rule h
  refine ⟨⟨pre, post, heq⟩, ?_⟩
  have hocc : listStartsWith rule (text.drop pre.length) = true := by
    rw [heq, List.append_assoc, List.drop_left]
    exact listStartsWith_self_append rule post
  obtain ⟨k, hk⟩ := indexOfCore_isSome_of_occurs rule text pre.length hocc
  rw [hk]
  exact Option.noConfusion

/-- C9 witness: the search succeeds on a concrete segmented rule. -/
theorem C9_witness :
    indexOfCore ['a', '{', 'b', '}'] ['a', '{', 'b', '}'] ≠ none :=
  (C9_segmented_rule_found ['a', '{', 'b', '}'] ['a', '{', 'b', '}']
    (by decide)).2

/-- C10 counterexample: after a stray leading `}`, a balanced but nested
block is not discarded: on `\x7dx\x7by\x7bz\x7d\x7d` the inner `\x7d`
returns the counter to 0 and the segmenter emits the rule
`\x7dx\x7by\x7bz\x7d`, refuting the unrestricted claim. -/
theorem C10_counterexample :
    depthAfter ['x', '{', 'y', '{', 'z', '}', '}'] = 0 ∧
    parseCSSRules ['}', 'x', '{', 'y', '{', 'z', '}', '}'] =
      [['}', 'x', '{', 'y', '{', 'z', '}']] := by
  decide

/-- C10 (amended): the depth counter goes negative on a stray `}`; with a
stray leading `}`, later content is silently discarded exactly when no `}`
in it ever returns the shifted counter to 0 (as with non-nested balanced
blocks), while the same text without the stray `}` yields the block. -/
theorem C10_stray_brace :
    depthAfter ['}'] = -1 ∧
    (∀ s, noClose s (-1) = true → parseCSSRules ('}' :: s) = []) ∧
    noClose ['a', '{', 'b', '}'] (-1) = true ∧
    parseCSSRules ['}', 'a', '{', 'b', '}'] = [] ∧
    parseCSSRules ['a', '{', 'b', '}'] = [['a', '{', 'b', '}']] := by
  refine ⟨by decide, ?_, by decide, by decide, by decide⟩
  intro s hs
  show (List.foldl parseStep ([], [], 0) ('}' :: s)).1 = []
  rw [List.foldl_cons]
  have hstep : parseStep ([], [], 0) '}' = ([], ['}'], -1) := by decide
  rw [hstep]
  exact foldl_noClose s [] ['}'] (-1) hs

/-- C10 witness: content after a stray `}` that closes nothing is dropped. -/
theorem C10_witness : parseCSSRules ['}', 'x'] = [] :=
  C10_stray_brace.2.1 ['x'] (by decide)
